import Mathlib

/-!
Verification of the single-stroke painting puzzle engine from `src/app.tsx`.

The engine state is a `Session`: the immutable target pattern and start cell
of the current level, the mutable paint-order grid, the stroke (ordered list
of painted cells), and the completed flag.  The single transition
`handleCellClick` is translated branch by branch from the source; the pointer
handlers' completion gate is `applyTouch`.  Grids are embedded as total
functions on integer coordinates; the source's bounds guard runs before any
grid access, which the embedding mirrors by guarding before applying the
pattern function.
-/

namespace Glow

/-- GRID_SIZE = 8 from the source. -/
def GRID_SIZE : Nat := 8

/-- A cell coordinate, as handed to `handleCellClick` (may be negative:
the pointer-to-cell mapping uses `Math.floor` on arbitrary pixel offsets). -/
structure Pos where
  x : Int
  y : Int
deriving DecidableEq, Repr

/-- The coordinate lies inside the 8 by 8 grid. -/
def inGrid (p : Pos) : Prop :=
  0 ≤ p.x ∧ p.x < (GRID_SIZE : Int) ∧ 0 ≤ p.y ∧ p.y < (GRID_SIZE : Int)

instance (p : Pos) : Decidable (inGrid p) := by
  unfold inGrid; infer_instance

/-- The per-level play state: target pattern, paint orders, stroke,
starting point and completed flag (the React state of `App`). -/
structure Session where
  target : Pos → Bool
  painted : Pos → Nat
  stroke : List Pos
  start : Option Pos
  completed : Bool

/-- `areAdjacent` from the source: 4-directional adjacency. -/
def areAdjacent (p1 p2 : Pos) : Bool :=
  let dx := (p1.x - p2.x).natAbs
  let dy := (p1.y - p2.y).natAbs
  (dx == 1 && dy == 0) || (dx == 0 && dy == 1)

/-- `checkCompletion` from the source: every target cell of the 8 by 8 grid
has a nonzero paint order. -/
def checkCompletion (target : Pos → Bool) (painted : Pos → Nat) : Bool :=
  (List.range GRID_SIZE).all fun y =>
    (List.range GRID_SIZE).all fun x =>
      !(target ⟨(x : Int), (y : Int)⟩ && painted ⟨(x : Int), (y : Int)⟩ == 0)

/-- The `isValidMove` test of `handleCellClick`: first click must hit the
starting point, later clicks must be adjacent to the stroke's last cell. -/
def validMove (s : Session) (p : Pos) : Bool :=
  if s.stroke = [] then
    match s.start with
    | some sp => decide (p.x = sp.x ∧ p.y = sp.y)
    | none => false
  else
    match s.stroke.getLast? with
    | some last => areAdjacent last p
    | none => false

/-- The revert branch of `handleCellClick`: truncate the stroke to the
clicked cell's order and clear every in-grid cell painted after it. -/
def revertStroke (s : Session) (p : Pos) : Session :=
  { s with
    stroke := s.stroke.take (s.painted p),
    painted := fun q => if inGrid q ∧ s.painted p < s.painted q then 0 else s.painted q }

/-- The extend branch of `handleCellClick`: append the cell, paint it with
the new stroke length, and signal completion when every target cell is
painted. -/
def extendStroke (s : Session) (p : Pos) : Session :=
  { s with
    stroke := s.stroke ++ [p],
    painted := fun q => if q = p then (s.stroke ++ [p]).length else s.painted q,
    completed :=
      if checkCompletion s.target
          (fun q => if q = p then (s.stroke ++ [p]).length else s.painted q) then
        true
      else s.completed }

/-- `handleCellClick` from the source: reject out-of-grid or non-target
cells, revert on an already painted cell, extend on a valid move, otherwise
leave the state unchanged. -/
def handleCellClick (s : Session) (p : Pos) : Session :=
  if p.x < 0 ∨ (GRID_SIZE : Int) ≤ p.x ∨ p.y < 0 ∨ (GRID_SIZE : Int) ≤ p.y ∨
      s.target p = false then
    s
  else if 0 < s.painted p then
    revertStroke s p
  else if validMove s p then
    extendStroke s p
  else s

/-- A touch as delivered by `handlePointerDown` / `handlePointerMove`: both
return immediately when the level is completed. -/
def applyTouch (s : Session) (p : Pos) : Session :=
  if s.completed then s else handleCellClick s p

/-- A sequence of touches applied in order. -/
def applyTouches (s : Session) (ps : List Pos) : Session :=
  ps.foldl applyTouch s

/-- The fresh session `generateLevel` installs for a pattern and start cell:
empty stroke, all-zero paint state, not completed. -/
def beginLevel (t : Pos → Bool) (sp : Pos) : Session :=
  { target := t, painted := fun _ => 0, stroke := [], start := some sp, completed := false }

/-- The target pattern built by `generateLevel` for a level number, branch by
branch (L-shape, holed rectangle, cross, zigzag, default spiral with two
cells removed). -/
def levelPattern (n : Nat) : Pos → Bool := fun p =>
  if n = 1 then
    decide ((p.x = 1 ∧ 1 ≤ p.y ∧ p.y < 6) ∨ (p.y = 5 ∧ 1 ≤ p.x ∧ p.x < 6))
  else if n = 2 then
    decide ((1 ≤ p.x ∧ p.x < 7 ∧ 1 ≤ p.y ∧ p.y < 7) ∧
      ¬((p.x = 3 ∧ p.y = 3) ∨ (p.x = 4 ∧ p.y = 3) ∨
        (p.x = 3 ∧ p.y = 4) ∨ (p.x = 4 ∧ p.y = 4)))
  else if n = 3 then
    decide (((p.x = 3 ∨ p.x = 4) ∧ 1 ≤ p.y ∧ p.y < 7) ∨
      ((p.y = 3 ∨ p.y = 4) ∧ 1 ≤ p.x ∧ p.x < 7))
  else if n = 4 then
    decide (((p.y = 1 ∨ p.y = 3 ∨ p.y = 5) ∧ 1 ≤ p.x ∧ p.x < 7) ∨
      ((p.x = 1 ∨ p.x = 6) ∧ 1 ≤ p.y ∧ p.y < 6))
  else
    decide ((1 ≤ p.x ∧ p.x < 7 ∧ 1 ≤ p.y ∧ p.y < 7 ∧
      1 ≤ (p.x - 4).natAbs + (p.y - 4).natAbs ∧
      (p.x - 4).natAbs + (p.y - 4).natAbs ≤ 3) ∧
      ¬(p.x = 2 ∧ p.y = 2) ∧ ¬(p.x = 5 ∧ p.y = 5))

/-- The start cell chosen by each branch of `generateLevel`
(the default branch uses `center = 4`). -/
def levelStart (n : Nat) : Pos :=
  if n = 1 then ⟨1, 1⟩
  else if n = 2 then ⟨1, 1⟩
  else if n = 3 then ⟨3, 1⟩
  else if n = 4 then ⟨1, 1⟩
  else ⟨1, 4⟩

/-- `generateLevel` from the source: build the level's pattern and start and
reset the play state. -/
def generateLevel (n : Nat) : Session :=
  beginLevel (levelPattern n) (levelStart n)

/-- `resetLevel` from the source: regenerate the current level. -/
def resetLevel (n : Nat) : Session :=
  generateLevel n

/-- A session reachable by some touch sequence from a freshly begun level. -/
def Reachable (s : Session) : Prop :=
  ∃ t sp ts, s = applyTouches (beginLevel t sp) ts

/-- The play invariants of a session: paint orders enumerate the stroke,
painted cells lie on the stroke, stroke cells are in-grid target cells,
consecutive stroke cells are adjacent, and the stroke starts at the start
cell. -/
structure Inv (s : Session) : Prop where
  orders : ∀ (i : Nat) (h : i < s.stroke.length), s.painted (s.stroke.get ⟨i, h⟩) = i + 1
  mem_of_painted : ∀ q, s.painted q ≠ 0 → q ∈ s.stroke
  inb : ∀ q ∈ s.stroke, inGrid q
  tgt : ∀ q ∈ s.stroke, s.target q = true
  adj : s.stroke.Chain' (fun a b => areAdjacent a b = true)
  head : ∀ a, s.stroke.head? = some a → s.start = some a

/-- A concrete reachable state used to instantiate hypotheses: level 1 with
the first two cells of the L painted. -/
def sample2 : Session :=
  applyTouches (beginLevel (levelPattern 1) (levelStart 1)) [⟨1, 1⟩, ⟨1, 2⟩]

/-- A session whose level has been completed, used to instantiate hypotheses. -/
def sampleDone : Session :=
  { beginLevel (levelPattern 1) (levelStart 1) with completed := true }

/-- The fresh session of level 1, used to instantiate hypotheses. -/
def sample0 : Session :=
  beginLevel (levelPattern 1) (levelStart 1)

theorem Pos.eq_of_xy {p q : Pos} (hx : p.x = q.x) (hy : p.y = q.y) : p = q := by
  cases p; cases q; simp_all

theorem handleCellClick_target (s : Session) (p : Pos) :
    (handleCellClick s p).target = s.target := by
  unfold handleCellClick revertStroke extendStroke
  repeat' split
  all_goals rfl

theorem handleCellClick_start (s : Session) (p : Pos) :
    (handleCellClick s p).start = s.start := by
  unfold handleCellClick revertStroke extendStroke
  repeat' split
  all_goals rfl

theorem applyTouch_target (s : Session) (p : Pos) :
    (applyTouch s p).target = s.target := by
  unfold applyTouch
  split
  · rfl
  · exact handleCellClick_target s p

theorem applyTouch_start (s : Session) (p : Pos) :
    (applyTouch s p).start = s.start := by
  unfold applyTouch
  split
  · rfl
  · exact handleCellClick_start s p

theorem applyTouches_target (s : Session) (ts : List Pos) :
    (applyTouches s ts).target = s.target := by
  induction ts generalizing s with
  | nil => rfl
  | cons p ts ih =>
    have h1 : applyTouches s (p :: ts) = applyTouches (applyTouch s p) ts := rfl
    rw [h1, ih, applyTouch_target]

theorem applyTouches_start (s : Session) (ts : List Pos) :
    (applyTouches s ts).start = s.start := by
  induction ts generalizing s with
  | nil => rfl
  | cons p ts ih =>
    have h1 : applyTouches s (p :: ts) = applyTouches (applyTouch s p) ts := rfl
    rw [h1, ih, applyTouch_start]

theorem validMove_nil (s : Session) (p : Pos) (h0 : s.stroke = [])
    (hv : validMove s p = true) : s.start = some p := by
  unfold validMove at hv
  rw [if_pos h0] at hv
  cases hs : s.start with
  | none => rw [hs] at hv; simp at hv
  | some sp =>
    rw [hs] at hv
    rw [decide_eq_true_eq] at hv
    rw [Pos.eq_of_xy hv.1 hv.2]

theorem validMove_getLast (s : Session) (p : Pos) (h0 : ¬s.stroke = [])
    (hv : validMove s p = true) :
    ∃ last, s.stroke.getLast? = some last ∧ areAdjacent last p = true := by
  unfold validMove at hv
  rw [if_neg h0] at hv
  cases hl : s.stroke.getLast? with
  | none => rw [hl] at hv; simp at hv
  | some last => rw [hl] at hv; exact ⟨last, rfl, hv⟩

theorem inv_beginLevel (t : Pos → Bool) (sp : Pos) : Inv (beginLevel t sp) := by
  constructor
  · intro i h; simp [beginLevel] at h
  · intro q hq; simp [beginLevel] at hq
  · intro q hq; simp [beginLevel] at hq
  · intro q hq; simp [beginLevel] at hq
  · simp [beginLevel]
  · intro a ha; simp [beginLevel] at ha

theorem Inv.index_of_painted {s : Session} (h : Inv s) (q : Pos) (m : Nat)
    (hm : s.painted q = m) (h1 : m ≠ 0) :
    ∃ hlt : m - 1 < s.stroke.length, s.stroke.get ⟨m - 1, hlt⟩ = q := by
  have hq : q ∈ s.stroke := h.mem_of_painted q (by rw [hm]; exact h1)
  obtain ⟨j, hj, hget⟩ := List.mem_iff_getElem.mp hq
  have horder := h.orders j hj
  rw [List.get_eq_getElem] at horder
  rw [hget] at horder
  have hjm : m - 1 = j := by omega
  subst hjm
  refine ⟨by omega, ?_⟩
  rw [List.get_eq_getElem]
  convert hget using 2

theorem Inv.painted_le {s : Session} (h : Inv s) (q : Pos) :
    s.painted q ≤ s.stroke.length := by
  by_cases h0 : s.painted q = 0
  · omega
  · obtain ⟨hlt, _⟩ := h.index_of_painted q (s.painted q) rfl h0
    omega

theorem inv_revert (s : Session) (p : Pos) (h : Inv s) : Inv (revertStroke s p) := by
  constructor
  · intro i hi
    simp only [revertStroke, List.length_take] at hi ⊢
    have hik : i < s.painted p := by omega
    have hil : i < s.stroke.length := by omega
    rw [List.get_eq_getElem]
    simp only [List.getElem_take]
    have horder := h.orders i hil
    rw [List.get_eq_getElem] at horder
    rw [if_neg]
    · exact horder
    · rw [horder]
      omega
  · intro q hq
    simp only [revertStroke] at hq ⊢
    by_cases hc : inGrid q ∧ s.painted p < s.painted q
    · rw [if_pos hc] at hq; omega
    · rw [if_neg hc] at hq
      obtain ⟨hlt, hget⟩ := h.index_of_painted q (s.painted q) rfl hq
      have hle : s.painted q ≤ s.painted p := by
        by_contra hgt
        exact hc ⟨h.inb q (h.mem_of_painted q hq), by omega⟩
      rw [List.get_eq_getElem] at hget
      apply List.mem_iff_getElem.mpr
      refine ⟨s.painted q - 1, ?_, ?_⟩
      · simp only [List.length_take]
        omega
      · rw [List.getElem_take]
        exact hget
  · intro q hq
    exact h.inb q (List.take_subset _ _ hq)
  · intro q hq
    exact h.tgt q (List.take_subset _ _ hq)
  · exact h.adj.take _
  · intro a ha
    simp only [revertStroke] at ha ⊢
    by_cases hk : s.painted p = 0
    · rw [hk] at ha; simp at ha
    · cases hl : s.stroke with
      | nil => rw [hl] at ha; simp at ha
      | cons b l' =>
        obtain ⟨k', hk'⟩ : ∃ k', s.painted p = k' + 1 :=
          ⟨s.painted p - 1, by omega⟩
        rw [hl, hk', List.take_succ_cons] at ha
        simp only [List.head?] at ha
        apply h.head
        rw [hl]
        simpa using ha

theorem inv_extend (s : Session) (p : Pos) (h : Inv s) (hin : inGrid p)
    (ht : s.target p = true) (hp : s.painted p = 0) (hv : validMove s p = true) :
    Inv (extendStroke s p) := by
  constructor
  · intro i hi
    simp only [extendStroke, List.length_append, List.length_cons,
      List.length_nil] at hi ⊢
    rw [List.get_eq_getElem]
    by_cases hil : i < s.stroke.length
    · rw [List.getElem_append_left hil]
      have horder := h.orders i hil
      rw [List.get_eq_getElem] at horder
      rw [if_neg]
      · exact horder
      · intro hcontra
        rw [hcontra, hp] at horder
        omega
    · have hieq : i = s.stroke.length := by omega
      subst hieq
      rw [List.getElem_append_right (le_refl _)]
      simp
  · intro q hq
    simp only [extendStroke] at hq ⊢
    by_cases hqp : q = p
    · subst hqp; simp
    · rw [if_neg hqp] at hq
      exact List.mem_append_left _ (h.mem_of_painted q hq)
  · intro q hq
    simp only [extendStroke, List.mem_append, List.mem_singleton] at hq
    rcases hq with hq | hq
    · exact h.inb q hq
    · subst hq; exact hin
  · intro q hq
    simp only [extendStroke, List.mem_append, List.mem_singleton] at hq
    rcases hq with hq | hq
    · exact h.tgt q hq
    · subst hq; exact ht
  · simp only [extendStroke]
    apply List.chain'_append.mpr
    refine ⟨h.adj, List.chain'_singleton p, ?_⟩
    intro x hx y hy
    simp only [List.head?, Option.mem_def, Option.some.injEq] at hy
    subst hy
    have hne : ¬s.stroke = [] := by
      intro hnil
      rw [hnil] at hx
      simp [List.getLast?] at hx
    obtain ⟨last, hlast, hadj⟩ := validMove_getLast s p hne hv
    rw [Option.mem_def] at hx
    rw [hlast] at hx
    injection hx with hx
    rw [hx] at hadj
    exact hadj
  · intro a ha
    simp only [extendStroke] at ha ⊢
    cases hl : s.stroke with
    | nil =>
      rw [hl] at ha
      simp only [List.nil_append, List.head?, Option.some.injEq] at ha
      subst ha
      exact validMove_nil s p hl hv
    | cons b l' =>
      rw [hl] at ha
      simp only [List.cons_append, List.head?, Option.some.injEq] at ha
      subst ha
      apply h.head
      rw [hl]
      rfl

theorem inv_handleCellClick (s : Session) (p : Pos) (h : Inv s) :
    Inv (handleCellClick s p) := by
  unfold handleCellClick
  split
  · exact h
  next hguard =>
    push_neg at hguard
    obtain ⟨h1, h2, h3, h4, h5⟩ := hguard
    split
    · exact inv_revert s p h
    next hp =>
      split
      next hv =>
        refine inv_extend s p h ⟨by omega, by omega, by omega, by omega⟩ ?_ (by omega) hv
        cases hb : s.target p with
        | false => exact absurd hb h5
        | true => rfl
      · exact h

theorem inv_applyTouch (s : Session) (p : Pos) (h : Inv s) : Inv (applyTouch s p) := by
  unfold applyTouch
  split
  · exact h
  · exact inv_handleCellClick s p h

theorem inv_applyTouches (s : Session) (ts : List Pos) (h : Inv s) :
    Inv (applyTouches s ts) := by
  induction ts generalizing s with
  | nil => exact h
  | cons p ts ih =>
    show Inv (applyTouches (applyTouch s p) ts)
    exact ih (applyTouch s p) (inv_applyTouch s p h)

theorem Reachable.inv {s : Session} (h : Reachable s) : Inv s := by
  obtain ⟨t, sp, ts, rfl⟩ := h
  exact inv_applyTouches _ _ (inv_beginLevel t sp)

theorem checkCompletion_iff (t : Pos → Bool) (pt : Pos → Nat) :
    checkCompletion t pt = true ↔ ∀ q, inGrid q → t q = true → pt q ≠ 0 := by
  have hinner : ∀ (b : Bool) (n : Nat), ((!(b && n == 0)) = true) ↔ (b = true → n ≠ 0) := by
    intro b n
    cases b <;> simp
  unfold checkCompletion
  simp only [List.all_eq_true, List.mem_range, hinner]
  constructor
  · intro hall q hq hqt
    obtain ⟨qx, qy⟩ := q
    unfold inGrid GRID_SIZE at hq
    dsimp only at hq hqt ⊢
    obtain ⟨h1, h2, h3, h4⟩ := hq
    have hy : qy.toNat < GRID_SIZE := by unfold GRID_SIZE; omega
    have hx : qx.toNat < GRID_SIZE := by unfold GRID_SIZE; omega
    have hqe : (⟨(qx.toNat : Int), (qy.toNat : Int)⟩ : Pos) = ⟨qx, qy⟩ := by
      rw [Int.toNat_of_nonneg h1, Int.toNat_of_nonneg h3]
    have hres := hall qy.toNat hy qx.toNat hx
    rw [hqe] at hres
    exact hres hqt
  · intro hall y hy x hx hxt
    apply hall ⟨(x : Int), (y : Int)⟩ ?_ hxt
    unfold inGrid GRID_SIZE
    unfold GRID_SIZE at hy hx
    dsimp only
    omega

theorem areAdjacent_iff (a b : Pos) :
    areAdjacent a b = true ↔
      (((a.x - b.x).natAbs = 1 ∧ a.y = b.y) ∨ (a.x = b.x ∧ (a.y - b.y).natAbs = 1)) := by
  unfold areAdjacent
  simp only [Bool.or_eq_true, Bool.and_eq_true, beq_iff_eq]
  constructor
  · rintro (⟨hx, hy⟩ | ⟨hx, hy⟩)
    · exact Or.inl ⟨hx, by omega⟩
    · exact Or.inr ⟨by omega, hy⟩
  · rintro (⟨hx, hy⟩ | ⟨hx, hy⟩)
    · exact Or.inl ⟨hx, by omega⟩
    · exact Or.inr ⟨by omega, hy⟩

/-- C3: on a fresh session (empty stroke, all-zero paint state), touching any
cell other than the designated start cell leaves the state unchanged, and the
start cell is the only touch that can begin a stroke. -/
theorem C3_first_touch_only_start (t : Pos → Bool) (sp p : Pos) :
    (p ≠ sp → handleCellClick (beginLevel t sp) p = beginLevel t sp) ∧
    ((handleCellClick (beginLevel t sp) p).stroke ≠ [] → p = sp) := by
  have hU : p ≠ sp → handleCellClick (beginLevel t sp) p = beginLevel t sp := by
    intro hne
    unfold handleCellClick
    split
    · rfl
    · rw [if_neg (show ¬0 < (beginLevel t sp).painted p by simp [beginLevel])]
      rw [if_neg (show ¬validMove (beginLevel t sp) p = true from ?_)]
      unfold validMove
      rw [if_pos (show (beginLevel t sp).stroke = [] from rfl)]
      show ¬(match (beginLevel t sp).start with
        | some spt => decide (p.x = spt.x ∧ p.y = spt.y)
        | none => false) = true
      have hst : (beginLevel t sp).start = some sp := rfl
      rw [hst]
      simp only [decide_eq_true_eq]
      intro hcon
      exact hne (Pos.eq_of_xy hcon.1 hcon.2)
  refine ⟨hU, ?_⟩
  intro hst
  by_contra hne
  rw [hU hne] at hst
  exact hst rfl

theorem C3_first_touch_only_start_witness :
    ((⟨2, 2⟩ : Pos) ≠ (⟨1, 1⟩ : Pos)) ∧
    handleCellClick (beginLevel (levelPattern 1) ⟨1, 1⟩) ⟨2, 2⟩ =
      beginLevel (levelPattern 1) ⟨1, 1⟩ :=
  ⟨by decide, (C3_first_touch_only_start (levelPattern 1) ⟨1, 1⟩ ⟨2, 2⟩).1 (by decide)⟩

/-- C6: a rejected touch (out of the grid, not a target cell, or unpainted
with an invalid move) leaves the whole session unchanged. -/
theorem C6_rejected_touch_unchanged (s : Session) (p : Pos)
    (h : ¬inGrid p ∨ s.target p = false ∨ (s.painted p = 0 ∧ validMove s p = false)) :
    handleCellClick s p = s := by
  unfold handleCellClick
  split
  · rfl
  next hguard =>
    push_neg at hguard
    obtain ⟨h1, h2, h3, h4, h5⟩ := hguard
    rcases h with hng | ht | ⟨hp0, hvm⟩
    · exact absurd ⟨by omega, by omega, by omega, by omega⟩ hng
    · exact absurd ht h5
    · rw [if_neg (by omega), if_neg (by simp [hvm])]

theorem C6_rejected_touch_unchanged_witness :
    (¬inGrid ⟨-1, 0⟩ ∨ (beginLevel (levelPattern 1) (levelStart 1)).target ⟨-1, 0⟩ = false ∨
      ((beginLevel (levelPattern 1) (levelStart 1)).painted ⟨-1, 0⟩ = 0 ∧
        validMove (beginLevel (levelPattern 1) (levelStart 1)) ⟨-1, 0⟩ = false)) ∧
    handleCellClick (beginLevel (levelPattern 1) (levelStart 1)) ⟨-1, 0⟩ =
      beginLevel (levelPattern 1) (levelStart 1) :=
  ⟨Or.inl (by decide),
    C6_rejected_touch_unchanged (beginLevel (levelPattern 1) (levelStart 1)) ⟨-1, 0⟩
      (Or.inl (by decide))⟩

/-- C7: once the completed flag is set, every further touch (single or in any
sequence) leaves the session unchanged; only reset or level advance can act. -/
theorem C7_completed_terminal (s : Session) (h : s.completed = true) (ts : List Pos) :
    (∀ p, applyTouch s p = s) ∧ applyTouches s ts = s := by
  have hone : ∀ p, applyTouch s p = s := by
    intro p
    unfold applyTouch
    rw [if_pos h]
  refine ⟨hone, ?_⟩
  induction ts with
  | nil => rfl
  | cons p ts ih =>
    show applyTouches (applyTouch s p) ts = s
    rw [hone p, ih]

theorem C7_completed_terminal_witness :
    sampleDone.completed = true ∧
    ((∀ p, applyTouch sampleDone p = sampleDone) ∧
      applyTouches sampleDone [⟨1, 2⟩, ⟨1, 3⟩] = sampleDone) :=
  ⟨rfl, C7_completed_terminal sampleDone rfl [⟨1, 2⟩, ⟨1, 3⟩]⟩

/-- C8: resetting the current level yields an empty stroke, an all-zero paint
state and a cleared completed flag, and the regenerated pattern and start are
identical to the ones of the play state being reset (generation is
deterministic per level number). -/
theorem C8_reset_level (n : Nat) (ts : List Pos) :
    (resetLevel n).stroke = [] ∧ (∀ q, (resetLevel n).painted q = 0) ∧
    (resetLevel n).completed = false ∧
    (resetLevel n).target = (applyTouches (generateLevel n) ts).target ∧
    (resetLevel n).start = (applyTouches (generateLevel n) ts).start := by
  refine ⟨rfl, fun q => rfl, rfl, ?_, ?_⟩
  · rw [applyTouches_target]; rfl
  · rw [applyTouches_start]; rfl

/-- C9: the touch operation is total on arbitrary integer coordinates: the
bounds test precedes any grid lookup, and every out-of-grid coordinate
(negative or at least GRID_SIZE) takes the rejected branch unchanged. -/
theorem C9_out_of_grid_rejected (s : Session) (x y : Int)
    (h : x < 0 ∨ (GRID_SIZE : Int) ≤ x ∨ y < 0 ∨ (GRID_SIZE : Int) ≤ y) :
    handleCellClick s ⟨x, y⟩ = s := by
  have hc : (⟨x, y⟩ : Pos).x < 0 ∨ (GRID_SIZE : Int) ≤ (⟨x, y⟩ : Pos).x ∨
      (⟨x, y⟩ : Pos).y < 0 ∨ (GRID_SIZE : Int) ≤ (⟨x, y⟩ : Pos).y ∨
      s.target ⟨x, y⟩ = false := by
    rcases h with h | h | h | h
    · exact Or.inl h
    · exact Or.inr (Or.inl h)
    · exact Or.inr (Or.inr (Or.inl h))
    · exact Or.inr (Or.inr (Or.inr (Or.inl h)))
  unfold handleCellClick
  rw [if_pos hc]

theorem C9_out_of_grid_rejected_witness :
    ((-5 : Int) < 0 ∨ (GRID_SIZE : Int) ≤ -5 ∨ (100 : Int) < 0 ∨ (GRID_SIZE : Int) ≤ 100) ∧
    handleCellClick (beginLevel (levelPattern 1) (levelStart 1)) ⟨-5, 100⟩ =
      beginLevel (levelPattern 1) (levelStart 1) :=
  ⟨by decide,
    C9_out_of_grid_rejected (beginLevel (levelPattern 1) (levelStart 1)) (-5) 100 (by decide)⟩

/-- C10: for every level number at least 1, the generated pattern marks the
designated start cell as a target, and the pattern has at least one target
cell. -/
theorem C10_generated_start_is_target (n : Nat) (h : 1 ≤ n) :
    (generateLevel n).start = some (levelStart n) ∧
    (generateLevel n).target (levelStart n) = true ∧
    ∃ q, (generateLevel n).target q = true := by
  have hm : levelPattern n (levelStart n) = true := by
    by_cases h1 : n = 1
    · subst h1; decide
    by_cases h2 : n = 2
    · subst h2; decide
    by_cases h3 : n = 3
    · subst h3; decide
    by_cases h4 : n = 4
    · subst h4; decide
    unfold levelPattern levelStart
    rw [if_neg h1, if_neg h2, if_neg h3, if_neg h4]
    rw [if_neg h1, if_neg h2, if_neg h3, if_neg h4]
    decide
  exact ⟨rfl, hm, ⟨levelStart n, hm⟩⟩

theorem C10_generated_start_is_target_witness :
    1 ≤ 5 ∧
    ((generateLevel 5).start = some (levelStart 5) ∧
      (generateLevel 5).target (levelStart 5) = true ∧
      ∃ q, (generateLevel 5).target q = true) :=
  ⟨by decide, C10_generated_start_is_target 5 (by decide)⟩

/-- C1: in a reachable play state, touching a cell with paint order k at
least 1 reverts: the stroke becomes the length-k prefix of the old stroke,
orders above k are cleared, orders up to k are kept, the touched cell stays
painted with order k, and the stroke ends at the touched cell. -/
theorem C1_revert_to_touched_order (s : Session) (hs : Reachable s) (p : Pos) (k : Nat)
    (hk : s.painted p = k) (hk1 : 1 ≤ k) :
    (handleCellClick s p).stroke = s.stroke.take k ∧
    (handleCellClick s p).stroke.length = k ∧
    (∀ q, k < s.painted q → (handleCellClick s p).painted q = 0) ∧
    (∀ q, s.painted q ≤ k → (handleCellClick s p).painted q = s.painted q) ∧
    (handleCellClick s p).painted p = k ∧
    (handleCellClick s p).stroke.getLast? = some p := by
  have hInv := hs.inv
  have hmem : p ∈ s.stroke := hInv.mem_of_painted p (by omega)
  have hin : inGrid p := hInv.inb p hmem
  have ht : s.target p = true := hInv.tgt p hmem
  have hkl : k ≤ s.stroke.length := hk ▸ hInv.painted_le p
  obtain ⟨hx0, hx1, hy0, hy1⟩ := hin
  have hguardF : ¬(p.x < 0 ∨ (GRID_SIZE : Int) ≤ p.x ∨ p.y < 0 ∨
      (GRID_SIZE : Int) ≤ p.y ∨ s.target p = false) := by
    push_neg
    exact ⟨by omega, by omega, by omega, by omega, by simp [ht]⟩
  have hstep : handleCellClick s p = revertStroke s p := by
    unfold handleCellClick
    rw [if_neg hguardF, if_pos (show 0 < s.painted p by omega)]
  rw [hstep]
  refine ⟨by simp [revertStroke, hk], ?_, ?_, ?_, ?_, ?_⟩
  · simp only [revertStroke, List.length_take, hk]
    omega
  · intro q hq
    have hq0 : s.painted q ≠ 0 := by omega
    have hqin : inGrid q := hInv.inb q (hInv.mem_of_painted q hq0)
    simp only [revertStroke]
    rw [if_pos ⟨hqin, by omega⟩]
  · intro q hq
    simp only [revertStroke]
    rw [if_neg (show ¬(inGrid q ∧ s.painted p < s.painted q) by rintro ⟨-, hgt⟩; omega)]
  · simp only [revertStroke]
    rw [if_neg (show ¬(inGrid p ∧ s.painted p < s.painted p) by rintro ⟨-, hgt⟩; omega)]
    exact hk
  · obtain ⟨hlt, hget⟩ := hInv.index_of_painted p k hk (by omega)
    rw [List.get_eq_getElem] at hget
    simp only [revertStroke]
    rw [List.getLast?_eq_getElem?]
    have hlen : (s.stroke.take (s.painted p)).length = k := by
      rw [List.length_take, hk]
      omega
    rw [hlen, hk]
    rw [List.getElem?_take_of_lt (show k - 1 < k by omega)]
    rw [List.getElem?_eq_getElem hlt]
    exact congrArg some hget

theorem C1_revert_to_touched_order_witness :
    Reachable sample2 ∧ sample2.painted ⟨1, 1⟩ = 1 ∧ 1 ≤ 1 ∧
    ((handleCellClick sample2 ⟨1, 1⟩).stroke = sample2.stroke.take 1 ∧
      (handleCellClick sample2 ⟨1, 1⟩).stroke.length = 1 ∧
      (∀ q, 1 < sample2.painted q → (handleCellClick sample2 ⟨1, 1⟩).painted q = 0) ∧
      (∀ q, sample2.painted q ≤ 1 →
        (handleCellClick sample2 ⟨1, 1⟩).painted q = sample2.painted q) ∧
      (handleCellClick sample2 ⟨1, 1⟩).painted ⟨1, 1⟩ = 1 ∧
      (handleCellClick sample2 ⟨1, 1⟩).stroke.getLast? = some ⟨1, 1⟩) :=
  ⟨⟨levelPattern 1, levelStart 1, [⟨1, 1⟩, ⟨1, 2⟩], rfl⟩, by decide, by decide,
    C1_revert_to_touched_order sample2
      ⟨levelPattern 1, levelStart 1, [⟨1, 1⟩, ⟨1, 2⟩], rfl⟩ ⟨1, 1⟩ 1 (by decide) (by decide)⟩

/-- C2: the completed flag is set exactly by an extending touch after which
every in-grid target cell is painted; the completion test itself holds iff
every in-grid target cell has a nonzero order, and never consults paint
values of non-target cells. -/
theorem C2_completion_signal (s : Session) (p : Pos) (hc : s.completed = false) :
    ((handleCellClick s p).completed = true ↔
      (inGrid p ∧ s.target p = true ∧ s.painted p = 0 ∧ validMove s p = true ∧
        ∀ q, inGrid q → s.target q = true → (handleCellClick s p).painted q ≠ 0)) ∧
    (∀ (t : Pos → Bool) (pt : Pos → Nat),
      checkCompletion t pt = true ↔ ∀ q, inGrid q → t q = true → pt q ≠ 0) ∧
    (∀ (t : Pos → Bool) (pt1 pt2 : Pos → Nat),
      (∀ q, t q = true → pt1 q = pt2 q) → checkCompletion t pt1 = checkCompletion t pt2) := by
  refine ⟨?_, checkCompletion_iff, ?_⟩
  · unfold handleCellClick
    split
    next hguard =>
      rw [hc]
      constructor
      · intro habs
        simp at habs
      · rintro ⟨hin, ht, -, -, -⟩
        exfalso
        obtain ⟨a, b, c, d⟩ := hin
        rcases hguard with hg | hg | hg | hg | hg
        · omega
        · omega
        · omega
        · omega
        · rw [ht] at hg
          simp at hg
    next hguard =>
      split
      next hrev =>
        have hcc : (revertStroke s p).completed = s.completed := rfl
        rw [hcc, hc]
        constructor
        · intro habs
          simp at habs
        · rintro ⟨-, -, hp0, -, -⟩
          exfalso
          omega
      next hnrev =>
        split
        next hv =>
          push_neg at hguard
          obtain ⟨h1, h2, h3, h4, h5⟩ := hguard
          have ht : s.target p = true := by
            cases hb : s.target p
            · exact absurd hb h5
            · rfl
          have hin : inGrid p := ⟨by omega, by omega, by omega, by omega⟩
          have hp0 : s.painted p = 0 := by omega
          unfold extendStroke
          dsimp only
          split
          next hchk =>
            constructor
            · rintro -
              refine ⟨hin, ht, hp0, hv, ?_⟩
              intro q hq hqt
              exact (checkCompletion_iff _ _).mp hchk q hq hqt
            · rintro -
              rfl
          next hchk =>
            rw [hc]
            constructor
            · intro habs
              simp at habs
            · rintro ⟨-, -, -, -, hall⟩
              exact absurd ((checkCompletion_iff _ _).mpr hall) hchk
        next hnv =>
          rw [hc]
          constructor
          · intro habs
            simp at habs
          · rintro ⟨-, -, -, hv, -⟩
            exact absurd hv hnv
  · intro t pt1 pt2 hagree
    have hfun : ∀ (xi yi : Int),
        (!(t ⟨xi, yi⟩ && pt1 ⟨xi, yi⟩ == 0)) = (!(t ⟨xi, yi⟩ && pt2 ⟨xi, yi⟩ == 0)) := by
      intro xi yi
      cases hb : t ⟨xi, yi⟩ with
      | false => simp
      | true => rw [hagree ⟨xi, yi⟩ hb]
    unfold checkCompletion
    simp only [hfun]

theorem C2_completion_signal_witness :
    sample0.completed = false ∧
    (((handleCellClick sample0 ⟨1, 1⟩).completed = true ↔
        (inGrid ⟨1, 1⟩ ∧ sample0.target ⟨1, 1⟩ = true ∧ sample0.painted ⟨1, 1⟩ = 0 ∧
          validMove sample0 ⟨1, 1⟩ = true ∧
          ∀ q, inGrid q → sample0.target q = true →
            (handleCellClick sample0 ⟨1, 1⟩).painted q ≠ 0)) ∧
      (∀ (t : Pos → Bool) (pt : Pos → Nat),
        checkCompletion t pt = true ↔ ∀ q, inGrid q → t q = true → pt q ≠ 0) ∧
      (∀ (t : Pos → Bool) (pt1 pt2 : Pos → Nat),
        (∀ q, t q = true → pt1 q = pt2 q) → checkCompletion t pt1 = checkCompletion t pt2)) :=
  ⟨rfl, C2_completion_signal sample0 ⟨1, 1⟩ rfl⟩

/-- C4: after any touch sequence from a fresh level, the positive paint
orders are exactly the range from 1 to the stroke length, and the cell of
order i+1 is exactly the stroke's i-th entry. -/
theorem C4_orders_dense_range (t : Pos → Bool) (sp : Pos) (ts : List Pos) :
    (∀ m : Nat, 0 < m →
      ((∃ q, (applyTouches (beginLevel t sp) ts).painted q = m) ↔
        m ≤ (applyTouches (beginLevel t sp) ts).stroke.length)) ∧
    (∀ (i : Nat) (h : i < (applyTouches (beginLevel t sp) ts).stroke.length) (q : Pos),
      (applyTouches (beginLevel t sp) ts).painted q = i + 1 ↔
        q = (applyTouches (beginLevel t sp) ts).stroke.get ⟨i, h⟩) := by
  have hInv : Inv (applyTouches (beginLevel t sp) ts) :=
    inv_applyTouches _ _ (inv_beginLevel t sp)
  constructor
  · intro m hm
    constructor
    · rintro ⟨q, hq⟩
      obtain ⟨hlt, -⟩ := hInv.index_of_painted q m hq (by omega)
      omega
    · intro hml
      have hlt : m - 1 < (applyTouches (beginLevel t sp) ts).stroke.length := by omega
      refine ⟨(applyTouches (beginLevel t sp) ts).stroke.get ⟨m - 1, hlt⟩, ?_⟩
      rw [hInv.orders (m - 1) hlt]
      omega
  · intro i hlt q
    constructor
    · intro hq
      obtain ⟨hlt2, hget⟩ := hInv.index_of_painted q (i + 1) hq (by omega)
      exact hget.symm
    · intro hq
      subst hq
      exact hInv.orders i hlt

theorem C4_orders_dense_range_witness :
    0 < 2 ∧
    ((∃ q, (applyTouches (beginLevel (levelPattern 1) (levelStart 1))
        [⟨1, 1⟩, ⟨1, 2⟩]).painted q = 2) ↔
      2 ≤ (applyTouches (beginLevel (levelPattern 1) (levelStart 1))
        [⟨1, 1⟩, ⟨1, 2⟩]).stroke.length) :=
  ⟨by decide,
    (C4_orders_dense_range (levelPattern 1) (levelStart 1) [⟨1, 1⟩, ⟨1, 2⟩]).1 2 (by decide)⟩

/-- C5: after any touch sequence from a fresh level, consecutive stroke cells
differ by exactly 1 in exactly one coordinate, and a non-empty stroke starts
at the pattern's start cell. -/
theorem C5_stroke_is_path (t : Pos → Bool) (sp : Pos) (ts : List Pos) :
    (applyTouches (beginLevel t sp) ts).stroke.Chain'
      (fun a b => ((a.x - b.x).natAbs = 1 ∧ a.y = b.y) ∨
        (a.x = b.x ∧ (a.y - b.y).natAbs = 1)) ∧
    ∀ a, (applyTouches (beginLevel t sp) ts).stroke.head? = some a → a = sp := by
  have hInv : Inv (applyTouches (beginLevel t sp) ts) :=
    inv_applyTouches _ _ (inv_beginLevel t sp)
  constructor
  · exact List.Chain'.imp (fun a b hab => (areAdjacent_iff a b).mp hab) hInv.adj
  · intro a ha
    have hstart := hInv.head a ha
    rw [applyTouches_start] at hstart
    simp only [beginLevel, Option.some.injEq] at hstart
    exact hstart.symm

theorem C5_stroke_is_path_witness :
    (applyTouches (beginLevel (levelPattern 1) (levelStart 1))
        [⟨1, 1⟩, ⟨1, 2⟩]).stroke.head? = some ⟨1, 1⟩ ∧
    (⟨1, 1⟩ : Pos) = levelStart 1 :=
  ⟨by decide,
    (C5_stroke_is_path (levelPattern 1) (levelStart 1) [⟨1, 1⟩, ⟨1, 2⟩]).2 ⟨1, 1⟩ (by decide)⟩

end Glow
